import Mathlib

/-!
Verification of the filename derivation and collision-resolution logic of the
PDF batch-renaming/export tool (`src/routes/cm2pohoda/index.tsx`).

Strings are modelled as Lean `String`s (lists of characters); the JavaScript
regular-expression pipeline of `sanitizeSegment` is embedded as explicit
character-list transformations.
-/

namespace PdfSort

/-! ## Segment sanitizer (`sanitizeSegment`, `validateSegment`) -/

/-- Code points matched by the JavaScript `\s` character class (and removed by
`String.prototype.trim`). -/
def jsWsCodes : List Nat :=
  [0x9, 0xA, 0xB, 0xC, 0xD, 0x20, 0xA0, 0x1680,
   0x2000, 0x2001, 0x2002, 0x2003, 0x2004, 0x2005, 0x2006, 0x2007,
   0x2008, 0x2009, 0x200A, 0x2028, 0x2029, 0x202F, 0x205F, 0x3000, 0xFEFF]

/-- JavaScript whitespace test (the class `\s`). -/
def isJsWs (c : Char) : Bool := jsWsCodes.contains c.toNat

/-- The characters replaced by a hyphen: the class `[/\\:*?"<>|]`. -/
def isForbidden (c : Char) : Bool :=
  c = '/' || c = '\\' || c = ':' || c = '*' || c = '?' || c = '"' ||
  c = '<' || c = '>' || c = '|'

/-- One character of `.replace(/[/\\:*?"<>|]/g, '-')`. -/
def replaceChar (c : Char) : Char := if isForbidden c then '-' else c

/-- Hyphen test (the character class of the hyphen-run regex). -/
def isHy (c : Char) : Bool := c = '-'

/-- Worker for run collapsing: the flag records whether the previous input
character belonged to a run of characters satisfying `p` (in which case the
replacement character has already been emitted for that run). -/
def collapseAux (p : Char → Bool) (r : Char) : Bool → List Char → List Char
  | _, [] => []
  | inRun, c :: cs =>
    if p c then
      if inRun then collapseAux p r true cs
      else r :: collapseAux p r true cs
    else c :: collapseAux p r false cs

/-- A global regex replace of every maximal run of characters satisfying `p`
by the single character `r`. -/
def collapseRuns (p : Char → Bool) (r : Char) (l : List Char) : List Char :=
  collapseAux p r false l

/-- Remove a leading and a trailing run of characters satisfying `p`
(the regex `/^p+|p+$/g`, and also `String.prototype.trim` for `p = \s`). -/
def stripEnds (p : Char → Bool) (l : List Char) : List Char :=
  List.rdropWhile p (List.dropWhile p l)

/-- `segment.trim()` on character data. -/
def jsTrim (l : List Char) : List Char := stripEnds isJsWs l

/-- The five-stage pipeline of `sanitizeSegment`, on character data:
trim, collapse whitespace runs to `-`, replace forbidden characters by `-`,
collapse hyphen runs, strip leading/trailing hyphens. -/
def sanitizeData (l : List Char) : List Char :=
  stripEnds isHy
    (collapseRuns isHy '-'
      ((collapseRuns isJsWs '-' (jsTrim l)).map replaceChar))

/-- `sanitizeSegment` from the source. -/
def sanitizeSegment (s : String) : String := ⟨sanitizeData s.data⟩

/-- `validateSegment` from the source: the sanitized segment is non-empty. -/
def validateSegment (s : String) : Bool := (sanitizeSegment s).length > 0

example : sanitizeSegment "  a//b::c  " = "a-b-c" := by decide
example : sanitizeSegment "" = "" := by decide
example : sanitizeSegment "   " = "" := by decide
example : sanitizeSegment "a b" = "a-b" := by decide
example : sanitizeSegment "---" = "" := by decide
example : sanitizeSegment "a- -b" = "a-b" := by decide

/-! ## Decimal numerals (JavaScript template interpolation of a counter) -/

/-- Digits of `n` in base ten, most significant first; the fuel argument is
always large enough (strictly above `n`). -/
def natReprAux : Nat → Nat → List Char
  | 0, _ => []
  | fuel + 1, n =>
    if n < 10 then [Nat.digitChar n]
    else natReprAux fuel (n / 10) ++ [Nat.digitChar (n % 10)]

/-- The decimal numeral of `n`, as produced by JavaScript template
interpolation of a nonnegative integer. -/
def natRepr (n : Nat) : String := ⟨natReprAux (n + 1) n⟩

example : natRepr 2 = "2" := by decide
example : natRepr 100 = "100" := by decide

/-- Numeric value of a decimal digit character. -/
def digitVal (c : Char) : Nat := c.toNat - 48

/-- Value of a most-significant-first digit string. -/
def charsToNat (l : List Char) : Nat := l.foldl (fun a c => a * 10 + digitVal c) 0

theorem digitVal_digitChar {d : Nat} (hd : d < 10) :
    digitVal (Nat.digitChar d) = d := by
  interval_cases d <;> rfl

theorem charsToNat_append (l : List Char) (c : Char) :
    charsToNat (l ++ [c]) = charsToNat l * 10 + digitVal c := by
  simp [charsToNat, List.foldl_append]

theorem natReprAux_val : ∀ fuel n, n < fuel → charsToNat (natReprAux fuel n) = n := by
  intro fuel
  induction fuel with
  | zero => intro n h; omega
  | succ f ih =>
    intro n h
    by_cases h10 : n < 10
    · simp only [natReprAux, if_pos h10]
      simpa [charsToNat] using digitVal_digitChar h10
    · have hdiv : n / 10 < n := Nat.div_lt_self (by omega) (by omega)
      have hf : n / 10 < f := by omega
      simp only [natReprAux, if_neg h10, charsToNat_append, ih _ hf,
        digitVal_digitChar (Nat.mod_lt n (by omega))]
      omega

theorem natRepr_injective : Function.Injective natRepr := by
  intro m n h
  have h' : natReprAux (m + 1) m = natReprAux (n + 1) n := congrArg String.data h
  have hm := natReprAux_val (m + 1) m (Nat.lt_succ_self m)
  have hn := natReprAux_val (n + 1) n (Nat.lt_succ_self n)
  rw [← hm, ← hn, h']

/-- Cancellation of a shared frame around a decimal numeral: the numeral
determines the counter. -/
theorem natRepr_frame_inj (a b : String) {j k : Nat}
    (h : a ++ natRepr j ++ b = a ++ natRepr k ++ b) : j = k := by
  apply natRepr_injective
  have h' := congrArg String.data h
  simp only [String.data_append] at h'
  have h2 := List.append_cancel_right h'
  have h3 := List.append_cancel_left h2
  exact congrArg String.mk h3

/-! ## Collision resolution (the `while (usedNames.has(filename))` loops) -/

/-- The body of the collision loop: starting from counter `k`, return the
first candidate `mk k'` (`k' ≥ k`) that is not yet used.  The fuel argument is
always chosen strictly above `used.length`, which suffices whenever `mk` is
injective. -/
def resolveLoop (mk : Nat → String) (used : List String) : Nat → Nat → String
  | 0, k => mk k
  | fuel + 1, k => if mk k ∈ used then resolveLoop mk used fuel (k + 1) else mk k

/-- One collision resolution: the first candidate is the plain name; on a
collision, numbered candidates are tried from counter 2 upwards. -/
def resolveName (first : String) (mk : Nat → String) (used : List String) : String :=
  if first ∈ used then resolveLoop mk used (used.length + 1) 2 else first

theorem resolveLoop_congr (mk : Nat → String) (used used' : List String) :
    ∀ fuel k, (∀ j, k ≤ j → (mk j ∈ used ↔ mk j ∈ used')) →
      resolveLoop mk used fuel k = resolveLoop mk used' fuel k := by
  intro fuel
  induction fuel with
  | zero => intro k _; rfl
  | succ f ih =>
    intro k hiff
    by_cases h : mk k ∈ used
    · rw [resolveLoop, resolveLoop, if_pos h, if_pos ((hiff k le_rfl).mp h)]
      exact ih (k + 1) fun j hj => hiff j (by omega)
    · rw [resolveLoop, resolveLoop, if_neg h,
        if_neg (fun h' => h ((hiff k le_rfl).mpr h'))]

theorem resolveLoop_shape (mk : Nat → String) (used : List String) :
    ∀ fuel k, ∃ m, k ≤ m ∧ resolveLoop mk used fuel k = mk m ∧
      ∀ j, k ≤ j → j < m → mk j ∈ used := by
  intro fuel
  induction fuel with
  | zero => intro k; exact ⟨k, le_rfl, rfl, fun j h1 h2 => absurd h1 (by omega)⟩
  | succ f ih =>
    intro k
    by_cases h : mk k ∈ used
    · obtain ⟨m, hm, heq, hall⟩ := ih (k + 1)
      refine ⟨m, by omega, by rw [resolveLoop, if_pos h]; exact heq, ?_⟩
      intro j h1 h2
      rcases Nat.eq_or_lt_of_le h1 with rfl | h1'
      · exact h
      · exact hall j h1' h2
    · exact ⟨k, le_rfl, by rw [resolveLoop, if_neg h], fun j h1 h2 => absurd h1 (by omega)⟩

theorem resolveLoop_fresh (mk : Nat → String) (k0 : Nat)
    (hinj : ∀ i j, k0 ≤ i → k0 ≤ j → mk i = mk j → i = j) :
    ∀ fuel (used : List String) k, k0 ≤ k → used.length < fuel →
      resolveLoop mk used fuel k ∉ used := by
  intro fuel
  induction fuel with
  | zero => intro used k _ h; omega
  | succ f ih =>
    intro used k hk hlen
    by_cases h : mk k ∈ used
    · rw [resolveLoop, if_pos h]
      have hne : ∀ j, k + 1 ≤ j → mk j ≠ mk k := by
        intro j hj heq
        have := hinj j k (by omega) hk heq
        omega
      have hcongr : resolveLoop mk used f (k + 1) =
          resolveLoop mk (used.erase (mk k)) f (k + 1) := by
        apply resolveLoop_congr
        intro j hj
        exact (List.mem_erase_of_ne (hne j hj)).symm
      have hlen' : (used.erase (mk k)).length < f := by
        rw [List.length_erase_of_mem h]
        have : 1 ≤ used.length := List.length_pos.mpr (List.ne_nil_of_mem h)
        omega
      have hfresh := ih (used.erase (mk k)) (k + 1) (by omega) hlen'
      obtain ⟨m, hm, heq, -⟩ := resolveLoop_shape mk (used.erase (mk k)) f (k + 1)
      rw [hcongr]
      intro hmem
      apply hfresh
      rw [heq] at hmem ⊢
      exact (List.mem_erase_of_ne (hne m hm)).mpr hmem
    · rw [resolveLoop, if_neg h]; exact h

/-- The resolved name is never one of the already used names (assuming the
numbered candidates are pairwise distinct). -/
theorem resolveName_fresh (first : String) (mk : Nat → String) (used : List String)
    (hinj : ∀ i j, 2 ≤ i → 2 ≤ j → mk i = mk j → i = j) :
    resolveName first mk used ∉ used := by
  rw [resolveName]
  by_cases h : first ∈ used
  · rw [if_pos h]
    exact resolveLoop_fresh mk 2 hinj (used.length + 1) used 2 le_rfl (by omega)
  · rw [if_neg h]; exact h

/-- Full characterization of one collision resolution: an unused candidate is
kept as is; otherwise the numbered candidates are tried from 2 upwards and the
first unused one is chosen. -/
theorem resolveName_spec (first : String) (mk : Nat → String) (used : List String)
    (hinj : ∀ i j, 2 ≤ i → 2 ≤ j → mk i = mk j → i = j) :
    (first ∉ used → resolveName first mk used = first) ∧
    (first ∈ used → ∃ m, 2 ≤ m ∧ resolveName first mk used = mk m ∧
      mk m ∉ used ∧ ∀ j, 2 ≤ j → j < m → mk j ∈ used) := by
  constructor
  · intro h; rw [resolveName, if_neg h]
  · intro h
    obtain ⟨m, hm, heq, hall⟩ := resolveLoop_shape mk used (used.length + 1) 2
    have hfresh := resolveLoop_fresh mk 2 hinj (used.length + 1) used 2 le_rfl (by omega)
    rw [heq] at hfresh
    exact ⟨m, hm, by rw [resolveName, if_pos h]; exact heq, hfresh, hall⟩

/-- Sequential assignment: each item contributes one output name, computed
against the set of names already assigned (initially `used`). -/
def assignAll : List (String × (Nat → String)) → List String → List String
  | [], _ => []
  | it :: rest, used =>
    let n := resolveName it.1 it.2 used
    n :: assignAll rest (n :: used)

theorem assignAll_length : ∀ (items : List (String × (Nat → String))) used,
    (assignAll items used).length = items.length := by
  intro items
  induction items with
  | nil => intro used; rfl
  | cons it rest ih => intro used; simp [assignAll, ih]

theorem assignAll_append (a b : List (String × (Nat → String))) (used : List String) :
    ∃ u', assignAll (a ++ b) used = assignAll a used ++ assignAll b u' := by
  induction a generalizing used with
  | nil => exact ⟨used, rfl⟩
  | cons it rest ih =>
    obtain ⟨u', hu⟩ := ih (resolveName it.1 it.2 used :: used)
    exact ⟨u', by simp [assignAll, hu]⟩

/-- Invariant of sequential assignment: the produced names are pairwise
distinct and avoid every initially used name. -/
theorem assignAll_nodup : ∀ (items : List (String × (Nat → String))) (used : List String),
    (∀ it ∈ items, ∀ i j, 2 ≤ i → 2 ≤ j → it.2 i = it.2 j → i = j) →
      (assignAll items used).Nodup ∧ ∀ n ∈ assignAll items used, n ∉ used := by
  intro items
  induction items with
  | nil => intro used _; exact ⟨List.nodup_nil, by simp [assignAll]⟩
  | cons it rest ih =>
    intro used hinj
    have hfresh := resolveName_fresh it.1 it.2 used (hinj it (by simp))
    obtain ⟨hnd, havoid⟩ :=
      ih (resolveName it.1 it.2 used :: used) (fun x hx => hinj x (by simp [hx]))
    constructor
    · refine List.Nodup.cons ?_ hnd
      intro hmem
      exact (havoid _ hmem) (by simp)
    · intro n hn
      simp only [assignAll, List.mem_cons] at hn
      rcases hn with rfl | hn
      · exact hfresh
      · intro hmem
        exact (havoid n hn) (by simp [hmem])

/-! ## Data model -/

/-- An uploaded browser file: the attributes the tool reads. -/
structure JsFile where
  name : String
  size : Nat
  lastModified : Nat
  type : String
deriving DecidableEq

/-- `getFileKey` from the source. -/
def getFileKey (f : JsFile) : String :=
  f.name ++ "|" ++ natRepr f.size ++ "|" ++ natRepr f.lastModified

/-- The `isPdf` predicate assigned in `handleFileSelect`. -/
def isPdfFile (f : JsFile) : Bool :=
  f.type == "application/pdf" ||
    decide ((f.name.data.map Char.toLower).reverse.take 4 = ['f', 'd', 'p', '.'])

/-- A `FileData` entry of the file list. -/
structure FileData where
  file : JsFile
  key : String
  isPdf : Bool
deriving DecidableEq

def mkFileData (f : JsFile) : FileData :=
  ⟨f, getFileKey f, isPdfFile f⟩

/-- `MAX_FILES` from the source. -/
def maxFiles : Nat := 100

/-- A metadata record (`PdfMetadata` in the source). -/
structure PdfMeta where
  distributor : String
  invoiceNumber : String
  date : String
deriving DecidableEq

/-- The status classification of a renamable item. -/
inductive PdfStatus where
  | ready
  | missing
  | invalid
deriving DecidableEq

/-! ## Status resolver (`getPdfStatus`) -/

/-- `DATE_REGEX.test`: four digits, hyphen, two digits, hyphen, two digits,
anchored at both ends. -/
def dateRegexTest (s : String) : Bool :=
  match s.data with
  | [y1, y2, y3, y4, h1, m1, m2, h2, d1, d2] =>
    y1.isDigit && y2.isDigit && y3.isDigit && y4.isDigit && h1 == '-' &&
    m1.isDigit && m2.isDigit && h2 == '-' && d1.isDigit && d2.isDigit
  | _ => false

example : dateRegexTest "2024-01-31" = true := by decide
example : dateRegexTest "2024-1-31" = false := by decide

/-- `getPdfStatus` from the source.  The metadata store is modelled as an
association list keyed by file key; JavaScript falsiness of a string is
emptiness. -/
def getPdfStatus (md : List (String × PdfMeta)) (key : String)
    (includePfx : Bool) (pfxValue : String) : PdfStatus × Option String :=
  match md.lookup key with
  | none => (.missing, some "No metadata")
  | some meta =>
    if meta.distributor = "" || meta.invoiceNumber = "" || meta.date = "" then
      (.missing, some "Missing fields")
    else if !dateRegexTest meta.date then
      (.invalid, some "Invalid date format (YYYY-MM-DD)")
    else if !validateSegment meta.distributor then
      (.invalid, some "Invalid distributor (empty after sanitization)")
    else if !validateSegment meta.invoiceNumber then
      (.invalid, some "Invalid invoice number (empty after sanitization)")
    else if includePfx && !(pfxValue == "") && !validateSegment pfxValue then
      (.invalid, some "Invalid prefix")
    else
      (.ready, none)

/-! ## Export gate (`allPdfsReady`, `handleExportClick`) -/

/-- `allPdfsReady` from the source: every renamable item (listed by key, in
input order) is ready, with the export prefix taken into account. -/
def allPdfsReady (pdfKeys : List String) (md : List (String × PdfMeta))
    (pfxValue : String) : Bool :=
  pdfKeys.all fun k => (getPdfStatus md k true pfxValue).1 == PdfStatus.ready

/-- Outcome of clicking the export button: either the prefix dialog opens, or
export is blocked and the first blocking item (if any was found) is selected
and scrolled into view. -/
inductive ClickResult where
  | proceed
  | blocked (surfaced : Option String)
deriving DecidableEq

/-- `handleExportClick` from the source.  Note that the blocking item is
searched with `includePrefix = false`. -/
def handleExportClick (pdfKeys : List String) (md : List (String × PdfMeta))
    (pfxValue : String) : ClickResult :=
  if allPdfsReady pdfKeys md pfxValue then .proceed
  else
    .blocked (pdfKeys.find? fun k =>
      !((getPdfStatus md k false pfxValue).1 == PdfStatus.ready))

/-! ## Upload limit (`handleFileSelect`) -/

/-- `handleFileSelect` from the source, as a transition on the pair
(file list, error message).  An absent or empty selection returns without
touching any state. -/
def handleFileSelect (cur : List FileData) (curError : String)
    (batch : List JsFile) : List FileData × String :=
  if batch.length = 0 then (cur, curError)
  else if cur.length + batch.length > maxFiles then
    (cur, "Cannot add " ++ natRepr batch.length ++ " files. Limit is " ++
      natRepr maxFiles ++ " files total. Currently: " ++ natRepr cur.length)
  else
    (cur ++ batch.map mkFileData, "")

/-! ## Filename builder (`handleConfirmExport`) -/

/-- `name.lastIndexOf('.')`, with the JavaScript convention of `-1` for a
missing character. -/
def lastIdxOfAux (c : Char) : List Char → Int → Int → Int
  | [], _, acc => acc
  | d :: ds, i, acc => lastIdxOfAux c ds (i + 1) (if d = c then i else acc)

def lastDotIdx (l : List Char) : Int := lastIdxOfAux '.' l 0 (-1)

example : lastDotIdx "a.txt".data = 1 := by decide
example : lastDotIdx "README".data = -1 := by decide
example : lastDotIdx ".gitignore".data = 0 := by decide

/-- The numbered collision candidate for a passthrough item: the counter is
inserted before the extension when the last dot sits at a positive index, and
appended at the very end otherwise. -/
def ptMk (name : String) (k : Nat) : String :=
  let d := lastDotIdx name.data
  if d > 0 then
    String.mk (name.data.take d.toNat) ++ "-" ++ natRepr k ++
      String.mk (name.data.drop d.toNat)
  else
    name ++ "-" ++ natRepr k

/-- A passthrough item: first candidate is the original name. -/
def ptItem (name : String) : String × (Nat → String) := (name, ptMk name)

/-- `meta.date.trim()`. -/
def jsTrimStr (s : String) : String := ⟨jsTrim s.data⟩

/-- The hyphen-joined stem of a renamable item's output name. -/
def pdfBaseName (sp : String) (m : PdfMeta) : String :=
  sp ++ "-" ++ sanitizeSegment m.distributor ++ "-" ++
    sanitizeSegment m.invoiceNumber ++ "-" ++ jsTrimStr m.date

/-- The numbered collision candidate for a renamable item. -/
def pdfMk (base : String) (k : Nat) : String :=
  base ++ "-" ++ natRepr k ++ ".pdf"

/-- A renamable item: first candidate is the stem with the `.pdf` extension. -/
def pdfItem (sp : String) (m : PdfMeta) : String × (Nat → String) :=
  (pdfBaseName sp m ++ ".pdf", pdfMk (pdfBaseName sp m))

/-- Look up the metadata record of every key; `none` as soon as one is
absent (in the source this is a thrown `TypeError`, caught by the export
handler). -/
def lookupAll (md : List (String × PdfMeta)) : List String → Option (List PdfMeta)
  | [] => some []
  | k :: ks =>
    match md.lookup k with
    | none => none
    | some m =>
      match lookupAll md ks with
      | none => none
      | some ms => some (m :: ms)

/-- `handleConfirmExport` from the source, as a function from the captured
state (prefix value, non-PDF file names in input order, PDF file keys in input
order, metadata store) to either an error message or the list of archive entry
names in processing order (passthrough items first). -/
def handleConfirmExport (pfxValue : String) (otherNames : List String)
    (pdfKeys : List String) (md : List (String × PdfMeta)) :
    Except String (List String) :=
  if sanitizeSegment pfxValue = "" then
    .error "Prefix is invalid (empty after sanitization)"
  else
    match lookupAll md pdfKeys with
    | none => .error "Export failed: missing metadata record"
    | some metas =>
      .ok (assignAll
        (otherNames.map ptItem ++ metas.map (pdfItem (sanitizeSegment pfxValue))) [])

/-! ## Helper lemmas -/

theorem string_ne_empty_iff_data (s : String) : s ≠ "" ↔ s.data ≠ [] := by
  constructor
  · intro h hc
    exact h (String.toList_inj.mp hc)
  · intro h hc
    rw [hc] at h
    exact h rfl

theorem validateSegment_true_iff (s : String) :
    validateSegment s = true ↔ sanitizeSegment s ≠ "" := by
  unfold validateSegment
  simp only [gt_iff_lt, decide_eq_true_eq]
  rw [string_ne_empty_iff_data, ← String.length_data, List.length_pos]

theorem validateSegment_false_iff (s : String) :
    validateSegment s = false ↔ sanitizeSegment s = "" := by
  rw [← Bool.not_eq_true, not_iff_comm, validateSegment_true_iff]

theorem resolveLoop_succ (mk : Nat → String) (used : List String) (fuel k : Nat) :
    resolveLoop mk used (fuel + 1) k =
      if mk k ∈ used then resolveLoop mk used fuel (k + 1) else mk k := rfl

theorem assignAll_nil (used : List String) : assignAll [] used = [] := rfl

theorem assignAll_cons (it : String × (Nat → String))
    (rest : List (String × (Nat → String))) (used : List String) :
    assignAll (it :: rest) used =
      resolveName it.1 it.2 used ::
        assignAll rest (resolveName it.1 it.2 used :: used) := rfl

theorem natRepr_length_pos (k : Nat) : 0 < (natRepr k).length := by
  rw [← String.length_data]
  show 0 < (natReprAux (k + 1) k).length
  rw [natReprAux]
  split <;> simp

theorem pdfMk_inj (base : String) {i j : Nat} (h : pdfMk base i = pdfMk base j) :
    i = j := by
  unfold pdfMk at h
  exact natRepr_frame_inj (base ++ "-") ".pdf" h

theorem ptMk_inj (name : String) {i j : Nat} (h : ptMk name i = ptMk name j) :
    i = j := by
  unfold ptMk at h
  simp only at h
  split at h
  · exact natRepr_frame_inj
      (String.mk (name.data.take (lastDotIdx name.data).toNat) ++ "-")
      (String.mk (name.data.drop (lastDotIdx name.data).toNat)) h
  · apply natRepr_frame_inj (name ++ "-") ""
    simpa [String.append_empty] using h

theorem pdfMk_ne_first (base : String) (k : Nat) : pdfMk base k ≠ base ++ ".pdf" := by
  intro h
  have hlen := congrArg String.length h
  have hk := natRepr_length_pos k
  simp only [pdfMk, String.length_append] at hlen
  omega

theorem lookupAll_length (md : List (String × PdfMeta)) :
    ∀ ks ms, lookupAll md ks = some ms → ms.length = ks.length := by
  intro ks
  induction ks with
  | nil => intro ms h; simp only [lookupAll, Option.some.injEq] at h; simp [← h]
  | cons k ks ih =>
    intro ms h
    simp only [lookupAll] at h
    cases hk : md.lookup k with
    | none => rw [hk] at h; exact absurd h (by simp)
    | some m =>
      rw [hk] at h
      cases hr : lookupAll md ks with
      | none => rw [hr] at h; exact absurd h (by simp)
      | some ms' =>
        rw [hr] at h
        simp only [Option.some.injEq] at h
        simp [← h, ih ms' hr]

theorem lookupAll_none_iff (md : List (String × PdfMeta)) :
    ∀ ks, lookupAll md ks = none ↔ ∃ k ∈ ks, md.lookup k = none := by
  intro ks
  induction ks with
  | nil => simp [lookupAll]
  | cons k ks ih =>
    simp only [lookupAll]
    cases hk : md.lookup k with
    | none =>
      constructor
      · intro _
        exact ⟨k, List.mem_cons_self k ks, hk⟩
      · intro _; rfl
    | some m =>
      cases hr : lookupAll md ks with
      | none =>
        constructor
        · intro _
          obtain ⟨k', hk', hn⟩ := ih.mp hr
          exact ⟨k', List.mem_cons_of_mem k hk', hn⟩
        · intro _; rfl
      | some ms =>
        constructor
        · intro h
          exact absurd h (by simp)
        · rintro ⟨k', hk', hn⟩
          rcases List.mem_cons.mp hk' with rfl | hmem
          · rw [hk] at hn
            exact absurd hn (by simp)
          · have := ih.mpr ⟨k', hmem, hn⟩
            rw [this] at hr
            exact absurd hr (by simp)

/-! ## Claim theorems -/

/-- C4: `sanitize` applies, in order, trim, whitespace-run collapse to a
hyphen, forbidden-character replacement, hyphen-run collapse, and
leading/trailing hyphen stripping; `sanitize("  a//b::c  ") = "a-b-c"`,
`sanitize("") = sanitize("   ") = ""`, and a segment is valid iff its
sanitized form is non-empty. -/
theorem sanitize_rules_in_order :
    (∀ s : String, sanitizeSegment s =
      ⟨stripEnds isHy
        (collapseRuns isHy '-'
          ((collapseRuns isJsWs '-' (stripEnds isJsWs s.data)).map replaceChar))⟩) ∧
    sanitizeSegment "  a//b::c  " = "a-b-c" ∧
    sanitizeSegment "" = "" ∧
    sanitizeSegment "   " = "" ∧
    ∀ s : String, validateSegment s = true ↔ sanitizeSegment s ≠ "" := by
  refine ⟨fun s => rfl, by decide, by decide, by decide, validateSegment_true_iff⟩

/-- C3: the status resolver reports the first failing rule in the fixed order
no-record, empty-field, date-shape, distributor-sanitization,
invoice-number-sanitization, prefix-sanitization (only with the prefix
included and non-empty), and otherwise `ready`. -/
theorem getPdfStatus_rule_order :
    ∀ (md : List (String × PdfMeta)) (key : String) (ip : Bool) (pv : String),
    (md.lookup key = none →
      getPdfStatus md key ip pv = (.missing, some "No metadata")) ∧
    ∀ m, md.lookup key = some m →
      ((m.distributor = "" ∨ m.invoiceNumber = "" ∨ m.date = "") →
        getPdfStatus md key ip pv = (.missing, some "Missing fields")) ∧
      (m.distributor ≠ "" → m.invoiceNumber ≠ "" → m.date ≠ "" →
        (dateRegexTest m.date = false →
          getPdfStatus md key ip pv =
            (.invalid, some "Invalid date format (YYYY-MM-DD)")) ∧
        (dateRegexTest m.date = true →
          (sanitizeSegment m.distributor = "" →
            getPdfStatus md key ip pv =
              (.invalid, some "Invalid distributor (empty after sanitization)")) ∧
          (sanitizeSegment m.distributor ≠ "" →
            (sanitizeSegment m.invoiceNumber = "" →
              getPdfStatus md key ip pv =
                (.invalid, some "Invalid invoice number (empty after sanitization)")) ∧
            (sanitizeSegment m.invoiceNumber ≠ "" →
              (ip = true → pv ≠ "" → sanitizeSegment pv = "" →
                getPdfStatus md key ip pv = (.invalid, some "Invalid prefix")) ∧
              ((ip = false ∨ pv = "" ∨ sanitizeSegment pv ≠ "") →
                getPdfStatus md key ip pv = (.ready, none)))))) := by
  intro md key ip pv
  constructor
  · intro h
    simp [getPdfStatus, h]
  · intro m hm
    refine ⟨fun hempty => ?_, fun hd hi hdt => ⟨fun hdate => ?_, fun hdate => ⟨fun hsd => ?_,
      fun hsd => ⟨fun hsi => ?_, fun hsi => ⟨fun hip hpv hspv => ?_, fun hor => ?_⟩⟩⟩⟩⟩ <;>
      simp only [getPdfStatus, hm]
    · rw [if_pos (by simp only [Bool.or_eq_true, decide_eq_true_eq]; tauto)]
    · rw [if_neg (by simp [hd, hi, hdt]), if_pos (by simp [hdate])]
    · rw [if_neg (by simp [hd, hi, hdt]), if_neg (by simp [hdate]),
        if_pos (by simp [validateSegment_false_iff, hsd])]
    · rw [if_neg (by simp [hd, hi, hdt]), if_neg (by simp [hdate]),
        if_neg (by simp [Bool.not_eq_true, validateSegment_true_iff, hsd]),
        if_pos (by simp [validateSegment_false_iff, hsi])]
    · rw [if_neg (by simp [hd, hi, hdt]), if_neg (by simp [hdate]),
        if_neg (by simp [Bool.not_eq_true, validateSegment_true_iff, hsd]),
        if_neg (by simp [Bool.not_eq_true, validateSegment_true_iff, hsi]),
        if_pos (by simp [hip, hpv, validateSegment_false_iff, hspv])]
    · rw [if_neg (by simp [hd, hi, hdt]), if_neg (by simp [hdate]),
        if_neg (by simp [Bool.not_eq_true, validateSegment_true_iff, hsd]),
        if_neg (by simp [Bool.not_eq_true, validateSegment_true_iff, hsi]),
        if_neg ?_]
      rcases hor with h | h | h <;>
        simp [h, Bool.not_eq_true, validateSegment_true_iff]

/-- C3 witness: rule 1 fires on an empty metadata store. -/
theorem getPdfStatus_rule_order_witness :
    getPdfStatus [] "k" true "p" = (.missing, some "No metadata") :=
  (getPdfStatus_rule_order [] "k" true "p").1 rfl

/-- C1: a renamable item's candidate name is
`sanitize(prefix)-sanitize(distributor)-sanitize(invoiceNumber)-trim(date).pdf`;
a fresh candidate is kept; a taken candidate gets the counter (starting at 2,
incremented while taken) appended before the `.pdf` extension; two items whose
segments build the identical stem receive `<name>.pdf` and `<name>-2.pdf`. -/
theorem pdf_rename_candidate_spec :
    ∀ (pfxValue : String) (m : PdfMeta) (used : List String),
      (pdfItem (sanitizeSegment pfxValue) m).1 =
        sanitizeSegment pfxValue ++ "-" ++ sanitizeSegment m.distributor ++ "-" ++
          sanitizeSegment m.invoiceNumber ++ "-" ++ jsTrimStr m.date ++ ".pdf" ∧
      ((pdfItem (sanitizeSegment pfxValue) m).1 ∉ used →
        resolveName (pdfItem (sanitizeSegment pfxValue) m).1
          (pdfItem (sanitizeSegment pfxValue) m).2 used =
          (pdfItem (sanitizeSegment pfxValue) m).1) ∧
      ((pdfItem (sanitizeSegment pfxValue) m).1 ∈ used →
        ∃ ctr, 2 ≤ ctr ∧
          resolveName (pdfItem (sanitizeSegment pfxValue) m).1
            (pdfItem (sanitizeSegment pfxValue) m).2 used =
            pdfBaseName (sanitizeSegment pfxValue) m ++ "-" ++ natRepr ctr ++ ".pdf" ∧
          pdfBaseName (sanitizeSegment pfxValue) m ++ "-" ++ natRepr ctr ++ ".pdf" ∉ used ∧
          ∀ j, 2 ≤ j → j < ctr →
            pdfBaseName (sanitizeSegment pfxValue) m ++ "-" ++ natRepr j ++ ".pdf" ∈ used) ∧
      ∀ (k1 k2 : String) (md : List (String × PdfMeta)),
        sanitizeSegment pfxValue ≠ "" → md.lookup k1 = some m → md.lookup k2 = some m →
          handleConfirmExport pfxValue [] [k1, k2] md =
            .ok [pdfBaseName (sanitizeSegment pfxValue) m ++ ".pdf",
                 pdfBaseName (sanitizeSegment pfxValue) m ++ "-" ++ natRepr 2 ++ ".pdf"] := by
  intro pfxValue m used
  have hinj : ∀ i j, 2 ≤ i → 2 ≤ j →
      (pdfItem (sanitizeSegment pfxValue) m).2 i =
        (pdfItem (sanitizeSegment pfxValue) m).2 j → i = j :=
    fun i j _ _ h => pdfMk_inj _ h
  obtain ⟨hfresh, hcoll⟩ := resolveName_spec (pdfItem (sanitizeSegment pfxValue) m).1
    (pdfItem (sanitizeSegment pfxValue) m).2 used hinj
  refine ⟨rfl, hfresh, fun hmem => ?_, fun k1 k2 md hp h1 h2 => ?_⟩
  · obtain ⟨ctr, hc2, heq, hnm, hall⟩ := hcoll hmem
    exact ⟨ctr, hc2, heq, hnm, hall⟩
  · rw [handleConfirmExport, if_neg hp]
    simp only [lookupAll, h1, h2, List.map_nil, List.map_cons, List.nil_append]
    have hne : pdfMk (pdfBaseName (sanitizeSegment pfxValue) m) 2 ≠
        pdfBaseName (sanitizeSegment pfxValue) m ++ ".pdf" := pdfMk_ne_first _ 2
    have r1 : resolveName (pdfItem (sanitizeSegment pfxValue) m).1
        (pdfItem (sanitizeSegment pfxValue) m).2 [] =
        (pdfItem (sanitizeSegment pfxValue) m).1 := by
      rw [resolveName, if_neg (List.not_mem_nil _)]
    have r2 : resolveName (pdfItem (sanitizeSegment pfxValue) m).1
        (pdfItem (sanitizeSegment pfxValue) m).2
        [(pdfItem (sanitizeSegment pfxValue) m).1] =
        pdfMk (pdfBaseName (sanitizeSegment pfxValue) m) 2 := by
      rw [resolveName, if_pos (List.mem_singleton.mpr rfl), resolveLoop_succ,
        if_neg (by simpa using hne)]
      rfl
    rw [assignAll_cons, r1, assignAll_cons, assignAll_nil, r2]
    rfl

/-- C1 witness: with an empty used set, the candidate itself is assigned. -/
theorem pdf_rename_candidate_spec_witness :
    resolveName (pdfItem (sanitizeSegment "x") ⟨"d", "i", "2024-01-01"⟩).1
      (pdfItem (sanitizeSegment "x") ⟨"d", "i", "2024-01-01"⟩).2 [] =
      (pdfItem (sanitizeSegment "x") ⟨"d", "i", "2024-01-01"⟩).1 :=
  (pdf_rename_candidate_spec "x" ⟨"d", "i", "2024-01-01"⟩ []).2.1 (by decide)

/-- C6: a passthrough item's candidate name is its original file name; a fresh
candidate is kept; a taken candidate gets the counter (starting at 2,
incremented while taken) placed per the extension rule; two passthrough files
named `a.txt` receive `a.txt` and `a-2.txt`. -/
theorem passthrough_candidate_spec :
    ∀ (name : String) (used : List String),
      (ptItem name).1 = name ∧
      (name ∉ used → resolveName name (ptMk name) used = name) ∧
      (name ∈ used → ∃ ctr, 2 ≤ ctr ∧
        resolveName name (ptMk name) used = ptMk name ctr ∧
        ptMk name ctr ∉ used ∧
        ∀ j, 2 ≤ j → j < ctr → ptMk name j ∈ used) ∧
      ∀ pfxValue : String, sanitizeSegment pfxValue ≠ "" →
        handleConfirmExport pfxValue ["a.txt", "a.txt"] [] [] =
          .ok ["a.txt", "a-2.txt"] := by
  intro name used
  have hinj : ∀ i j, 2 ≤ i → 2 ≤ j → ptMk name i = ptMk name j → i = j :=
    fun i j _ _ h => ptMk_inj _ h
  obtain ⟨hfresh, hcoll⟩ := resolveName_spec name (ptMk name) used hinj
  refine ⟨rfl, hfresh, hcoll, fun pfxValue hp => ?_⟩
  rw [handleConfirmExport, if_neg hp]
  simp only [lookupAll, List.map_nil, List.append_nil, List.map_cons]
  rfl

/-- C6 witness: a fresh passthrough name is kept unchanged. -/
theorem passthrough_candidate_spec_witness :
    resolveName "a.txt" (ptMk "a.txt") [] = "a.txt" :=
  (passthrough_candidate_spec "a.txt" []).2.1 (by decide)

/-- C10: the collision counter of a passthrough item is appended at the very
end of the name when the name has no dot or its only dot is the leading
character; the insert-before-extension form applies exactly when the last dot
sits at a strictly positive index; `README` and `.gitignore` resolve to
`README-2` and `.gitignore-2`. -/
theorem passthrough_dot_position_spec :
    ∀ (name : String) (k : Nat),
      (lastDotIdx name.data ≤ 0 → ptMk name k = name ++ "-" ++ natRepr k) ∧
      (lastDotIdx name.data > 0 →
        ptMk name k = String.mk (name.data.take (lastDotIdx name.data).toNat) ++ "-" ++
          natRepr k ++ String.mk (name.data.drop (lastDotIdx name.data).toNat)) ∧
      resolveName "README" (ptMk "README") ["README"] = "README-2" ∧
      resolveName ".gitignore" (ptMk ".gitignore") [".gitignore"] = ".gitignore-2" := by
  intro name k
  refine ⟨fun h => ?_, fun h => ?_, by decide, by decide⟩
  · rw [ptMk, if_neg (by omega)]
  · rw [ptMk, if_pos h]

/-- C10 witness: `a.txt` has its counter inserted before the extension. -/
theorem passthrough_dot_position_spec_witness :
    ptMk "a.txt" 2 = String.mk ("a.txt".data.take (lastDotIdx "a.txt".data).toNat) ++
      "-" ++ natRepr 2 ++ String.mk ("a.txt".data.drop (lastDotIdx "a.txt".data).toNat) :=
  (passthrough_dot_position_spec "a.txt" 2).2.1 (by decide)

/-- C2: a successful export assigns pairwise distinct names, one per item, in
the fixed order passthrough items first (their names independent of the
renamable items) and renamable items second, each in original input order. -/
theorem export_names_distinct_ordered :
    ∀ (pfxValue : String) (otherNames pdfKeys : List String)
      (md : List (String × PdfMeta)) (ns : List String),
      handleConfirmExport pfxValue otherNames pdfKeys md = .ok ns →
        ns.Nodup ∧
        ns.length = otherNames.length + pdfKeys.length ∧
        handleConfirmExport pfxValue otherNames [] md = .ok (ns.take otherNames.length) := by
  intro pfxValue otherNames pdfKeys md ns h
  by_cases hp : sanitizeSegment pfxValue = ""
  · rw [handleConfirmExport, if_pos hp] at h
    exact absurd h (by simp)
  rw [handleConfirmExport, if_neg hp] at h
  cases hl : lookupAll md pdfKeys with
  | none =>
    rw [hl] at h
    exact absurd h (by simp)
  | some metas =>
    rw [hl] at h
    simp only [Except.ok.injEq] at h
    have hinj : ∀ it ∈ otherNames.map ptItem ++
        metas.map (pdfItem (sanitizeSegment pfxValue)),
        ∀ i j, 2 ≤ i → 2 ≤ j → it.2 i = it.2 j → i = j := by
      intro it hit i j _ _ hij
      rcases List.mem_append.mp hit with hmem | hmem
      · obtain ⟨n, -, rfl⟩ := List.mem_map.mp hmem
        exact ptMk_inj _ hij
      · obtain ⟨mm, -, rfl⟩ := List.mem_map.mp hmem
        exact pdfMk_inj _ hij
    have hlen : metas.length = pdfKeys.length := lookupAll_length md pdfKeys metas hl
    refine ⟨?_, ?_, ?_⟩
    · rw [← h]
      exact (assignAll_nodup _ [] hinj).1
    · rw [← h, assignAll_length, List.length_append, List.length_map,
        List.length_map, hlen]
    · rw [handleConfirmExport, if_neg hp]
      simp only [lookupAll, List.map_nil, List.append_nil, Except.ok.injEq]
      obtain ⟨u', hu⟩ := assignAll_append (otherNames.map ptItem)
        (metas.map (pdfItem (sanitizeSegment pfxValue))) []
      rw [← h, hu, List.take_left' (by rw [assignAll_length, List.length_map])]

/-- C2 witness: two passthrough files named `a.txt` export to two distinct
names, in input order, independent of the (empty) renamable list. -/
theorem export_names_distinct_ordered_witness :
    (["a.txt", "a-2.txt"] : List String).Nodup ∧
    (["a.txt", "a-2.txt"] : List String).length =
      (["a.txt", "a.txt"] : List String).length + ([] : List String).length ∧
    handleConfirmExport "x" ["a.txt", "a.txt"] [] [] =
      .ok ((["a.txt", "a-2.txt"] : List String).take
        (["a.txt", "a.txt"] : List String).length) :=
  export_names_distinct_ordered "x" ["a.txt", "a.txt"] [] [] ["a.txt", "a-2.txt"] rfl

/-- C7 counterexample: an item whose status (with the prefix included) is not
`ready` — its distributor is empty — does not make the export fail: the
archive is produced, with the empty segment spliced into the name. -/
theorem export_ignores_item_status_counterexample :
    (getPdfStatus [("k", ⟨"", "i", "2024-01-01"⟩)] "k" true "x").1 ≠ PdfStatus.ready ∧
    handleConfirmExport "x" [] ["k"] [("k", ⟨"", "i", "2024-01-01"⟩)] =
      .ok ["x--i-2024-01-01.pdf"] :=
  ⟨by decide, rfl⟩

/-- C7 (amended): the export build fails — reporting an error and producing no
archive — exactly when the prefix sanitizes to empty or some renamable item
has no metadata record at all; item statuses are not re-checked. -/
theorem export_error_iff :
    ∀ (pfxValue : String) (otherNames pdfKeys : List String)
      (md : List (String × PdfMeta)),
      (∃ e, handleConfirmExport pfxValue otherNames pdfKeys md = .error e) ↔
        (sanitizeSegment pfxValue = "" ∨ ∃ k ∈ pdfKeys, md.lookup k = none) := by
  intro pfxValue otherNames pdfKeys md
  constructor
  · rintro ⟨e, he⟩
    by_cases hp : sanitizeSegment pfxValue = ""
    · exact Or.inl hp
    · rw [handleConfirmExport, if_neg hp] at he
      cases hl : lookupAll md pdfKeys with
      | none => exact Or.inr ((lookupAll_none_iff md pdfKeys).mp hl)
      | some ms =>
        rw [hl] at he
        exact absurd he (by simp)
  · intro h
    rcases h with hp | hmiss
    · exact ⟨_, by rw [handleConfirmExport, if_pos hp]⟩
    · have hl := (lookupAll_none_iff md pdfKeys).mpr hmiss
      by_cases hp : sanitizeSegment pfxValue = ""
      · exact ⟨_, by rw [handleConfirmExport, if_pos hp]⟩
      · refine ⟨"Export failed: missing metadata record", ?_⟩
        rw [handleConfirmExport, if_neg hp, hl]

/-- C9 counterexample: an empty selection is within the limit, yet a previous
error message is kept instead of being cleared. -/
theorem upload_empty_batch_counterexample :
    ([] : List FileData).length + ([] : List JsFile).length ≤ maxFiles ∧
    (handleFileSelect [] "boom" []).2 = "boom" ∧ ("boom" : String) ≠ "" :=
  ⟨by decide, rfl, by decide⟩

/-- C9 (amended): an empty selection leaves the file list and the error
message untouched; a non-empty batch that would exceed the maximum is rejected
atomically with the count-based message; otherwise the whole batch is appended
and the error is cleared. -/
theorem upload_limit_spec :
    ∀ (cur : List FileData) (curError : String) (batch : List JsFile),
      (batch = [] → handleFileSelect cur curError batch = (cur, curError)) ∧
      (batch ≠ [] → cur.length + batch.length > maxFiles →
        handleFileSelect cur curError batch =
          (cur, "Cannot add " ++ natRepr batch.length ++ " files. Limit is " ++
            natRepr maxFiles ++ " files total. Currently: " ++ natRepr cur.length)) ∧
      (batch ≠ [] → cur.length + batch.length ≤ maxFiles →
        handleFileSelect cur curError batch = (cur ++ batch.map mkFileData, "")) := by
  intro cur curError batch
  refine ⟨fun hb => ?_, fun hb hgt => ?_, fun hb hle => ?_⟩
  · subst hb; rfl
  · rw [handleFileSelect, if_neg (fun h => hb (List.length_eq_zero.mp h)), if_pos hgt]
  · rw [handleFileSelect, if_neg (fun h => hb (List.length_eq_zero.mp h)),
      if_neg (by omega)]

/-- C9 witness: one file within the limit is appended and the error cleared. -/
theorem upload_limit_spec_witness :
    handleFileSelect [] "old error" [⟨"a.txt", 1, 0, "text/plain"⟩] =
      ([] ++ ([⟨"a.txt", 1, 0, "text/plain"⟩] : List JsFile).map mkFileData, "") :=
  (upload_limit_spec [] "old error" [⟨"a.txt", 1, 0, "text/plain"⟩]).2.2
    (by decide) (by decide)

theorem getPdfStatus_empty_pfx (md : List (String × PdfMeta)) (key : String)
    (ip : Bool) : getPdfStatus md key ip "" = getPdfStatus md key false "" := by
  cases h : md.lookup key with
  | none => simp [getPdfStatus, h]
  | some m => simp [getPdfStatus, h]

/-- C8: export proceeds past the gate iff every renamable item is `ready` with
the prefix included; otherwise (at the reachable click states, where the
prefix value is empty) some item is surfaced, namely the first non-ready one:
every item before it in input order is ready. -/
theorem export_gate_spec :
    ∀ (pdfKeys : List String) (md : List (String × PdfMeta)) (pfxValue : String),
      (handleExportClick pdfKeys md pfxValue = .proceed ↔
        ∀ k ∈ pdfKeys, (getPdfStatus md k true pfxValue).1 = .ready) ∧
      (pfxValue = "" →
        (¬ ∀ k ∈ pdfKeys, (getPdfStatus md k true pfxValue).1 = .ready) →
        ∃ k', handleExportClick pdfKeys md pfxValue = .blocked (some k')) ∧
      (pfxValue = "" → ∀ k',
        handleExportClick pdfKeys md pfxValue = .blocked (some k') →
        ∃ as bs, pdfKeys = as ++ k' :: bs ∧
          (getPdfStatus md k' true pfxValue).1 ≠ .ready ∧
          ∀ a ∈ as, (getPdfStatus md a true pfxValue).1 = .ready) := by
  intro pdfKeys md pfxValue
  have hready : allPdfsReady pdfKeys md pfxValue = true ↔
      ∀ k ∈ pdfKeys, (getPdfStatus md k true pfxValue).1 = .ready := by
    rw [allPdfsReady, List.all_eq_true]
    constructor
    · intro h k hk
      exact beq_iff_eq.mp (h k hk)
    · intro h k hk
      exact beq_iff_eq.mpr (h k hk)
  refine ⟨?_, fun hpv hnall => ?_, fun hpv k' hk' => ?_⟩
  · rw [handleExportClick]
    constructor
    · intro h
      by_cases ha : allPdfsReady pdfKeys md pfxValue
      · exact hready.mp ha
      · rw [if_neg ha] at h
        exact absurd h (by simp)
    · intro h
      rw [if_pos (hready.mpr h)]
  · subst hpv
    rw [handleExportClick, if_neg (fun ha => hnall (hready.mp ha))]
    obtain ⟨k0, hk0, hs0⟩ := not_forall₂.mp hnall
    have hfind : (pdfKeys.find? fun k =>
        !((getPdfStatus md k false "").1 == PdfStatus.ready)).isSome := by
      rw [List.find?_isSome]
      refine ⟨k0, hk0, ?_⟩
      rw [← getPdfStatus_empty_pfx md k0 true]
      simpa using hs0
    obtain ⟨k', hk'⟩ := Option.isSome_iff_exists.mp hfind
    exact ⟨k', by rw [hk']⟩
  · subst hpv
    by_cases ha : allPdfsReady pdfKeys md ""
    · rw [handleExportClick, if_pos ha] at hk'
      exact absurd hk' (by simp)
    · rw [handleExportClick, if_neg ha] at hk'
      simp only [ClickResult.blocked.injEq] at hk'
      obtain ⟨hp, as, bs, hsplit, hbefore⟩ := List.find?_eq_some.mp hk'
      refine ⟨as, bs, hsplit, ?_, ?_⟩
      · rw [getPdfStatus_empty_pfx md k' true]
        simpa using hp
      · intro a ha'
        have := hbefore a ha'
        rw [getPdfStatus_empty_pfx md a true]
        simpa using this

/-- C8 witness: one item with no metadata blocks the gate and is surfaced. -/
theorem export_gate_spec_witness :
    ∃ k', handleExportClick ["k"] [] "" = .blocked (some k') :=
  (export_gate_spec ["k"] [] "").2.1 rfl (by decide)

/-! ## Shape of sanitized output (towards idempotence) -/

/-- No two adjacent hyphens. -/
def NoHH (a b : Char) : Prop := ¬(a = '-' ∧ b = '-')

theorem isHy_true_iff (c : Char) : isHy c = true ↔ c = '-' := by
  simp [isHy]

theorem isHy_false_iff (c : Char) : isHy c = false ↔ c ≠ '-' := by
  simp [isHy]

theorem head?_mem {α : Type} {l : List α} {c : α} (h : l.head? = some c) : c ∈ l := by
  cases l with
  | nil => exact absurd h (by simp)
  | cons d ds =>
    simp only [List.head?_cons, Option.some.injEq] at h
    exact h ▸ List.mem_cons_self d ds

theorem getLast?_mem {α : Type} {l : List α} {c : α} (h : l.getLast? = some c) :
    c ∈ l :=
  List.mem_of_mem_getLast? (by rw [h]; rfl)

theorem collapseAux_mem (p : Char → Bool) (r : Char) :
    ∀ (l : List Char) (b : Bool) (c : Char), c ∈ collapseAux p r b l →
      c = r ∨ (c ∈ l ∧ p c = false) := by
  intro l
  induction l with
  | nil => intro b c hc; exact absurd hc (by simp [collapseAux])
  | cons d ds ih =>
    intro b c hc
    by_cases hd : p d
    · cases b with
      | true =>
        rw [collapseAux, if_pos hd] at hc
        rcases ih true c hc with h | ⟨hm, hp⟩
        · exact Or.inl h
        · exact Or.inr ⟨List.mem_cons_of_mem d hm, hp⟩
      | false =>
        rw [collapseAux, if_pos hd] at hc
        rcases List.mem_cons.mp hc with rfl | hc'
        · exact Or.inl rfl
        · rcases ih true c hc' with h | ⟨hm, hp⟩
          · exact Or.inl h
          · exact Or.inr ⟨List.mem_cons_of_mem d hm, hp⟩
    · rw [collapseAux, if_neg hd] at hc
      rcases List.mem_cons.mp hc with rfl | hc'
      · exact Or.inr ⟨List.mem_cons_self c ds, by simpa using hd⟩
      · rcases ih false c hc' with h | ⟨hm, hp⟩
        · exact Or.inl h
        · exact Or.inr ⟨List.mem_cons_of_mem d hm, hp⟩

theorem collapseAux_id (p : Char → Bool) (r : Char) :
    ∀ (l : List Char) (b : Bool), (∀ c ∈ l, p c = false) →
      collapseAux p r b l = l := by
  intro l
  induction l with
  | nil => intro b _; rfl
  | cons d ds ih =>
    intro b h
    rw [collapseAux, if_neg (by simp [h d (List.mem_cons_self d ds)]),
      ih false fun c hc => h c (List.mem_cons_of_mem d hc)]

theorem collapseAux_true_head (p : Char → Bool) (r : Char) :
    ∀ (l : List Char) (c : Char), (collapseAux p r true l).head? = some c →
      p c = false := by
  intro l
  induction l with
  | nil => intro c hc; exact absurd hc (by simp [collapseAux])
  | cons d ds ih =>
    intro c hc
    by_cases hd : p d
    · rw [collapseAux, if_pos hd] at hc
      exact ih c hc
    · rw [collapseAux, if_neg hd] at hc
      simp only [List.head?_cons, Option.some.injEq] at hc
      rw [← hc]
      simpa using hd

theorem collapseAux_hy_chain :
    ∀ (l : List Char) (b : Bool), List.Chain' NoHH (collapseAux isHy '-' b l) := by
  intro l
  induction l with
  | nil => intro b; simp [collapseAux]
  | cons d ds ih =>
    intro b
    by_cases hd : isHy d
    · cases b with
      | true =>
        rw [collapseAux, if_pos hd]
        exact ih true
      | false =>
        rw [collapseAux, if_pos hd]
        refine List.chain'_cons'.mpr ⟨?_, ih true⟩
        intro y hy
        have hyf : isHy y = false := collapseAux_true_head isHy '-' ds y hy
        rintro ⟨-, hy'⟩
        exact (isHy_false_iff y).mp hyf hy'
    · rw [collapseAux, if_neg hd]
      refine List.chain'_cons'.mpr ⟨?_, ih false⟩
      intro y _
      rintro ⟨hd', -⟩
      exact (isHy_false_iff d).mp (by simpa using hd) hd'

theorem collapseAux_id_of_chain :
    ∀ (l : List Char), List.Chain' NoHH l →
      collapseAux isHy '-' false l = l ∧
      ((∀ c, l.head? = some c → c ≠ '-') → collapseAux isHy '-' true l = l) := by
  intro l
  induction l with
  | nil => intro _; exact ⟨rfl, fun _ => rfl⟩
  | cons d ds ih =>
    intro hch
    obtain ⟨hhead, htl⟩ := List.chain'_cons'.mp hch
    obtain ⟨ih1, ih2⟩ := ih htl
    constructor
    · by_cases hd : isHy d
      · have hd' : d = '-' := (isHy_true_iff d).mp hd
        rw [collapseAux, if_pos hd, ih2 ?_, hd']
        · simp
        · intro c hc hc'
          exact hhead c (by rw [hc]; rfl) ⟨hd', hc'⟩
      · rw [collapseAux, if_neg hd, ih1]
    · intro hc
      have hd : isHy d = false := (isHy_false_iff d).mpr (hc d rfl)
      rw [collapseAux, if_neg (by simp [hd]), ih1]

theorem stripEnds_sublist (p : Char → Bool) (l : List Char) :
    List.Sublist (stripEnds p l) l := by
  have h1 := List.rdropWhile_prefix p (List.dropWhile p l)
  have h2 := List.dropWhile_suffix (l := l) p
  exact (h1.sublist).trans h2.sublist

theorem stripEnds_mem (p : Char → Bool) (l : List Char) {c : Char}
    (hc : c ∈ stripEnds p l) : c ∈ l :=
  (stripEnds_sublist p l).subset hc

theorem stripEnds_chain {R : Char → Char → Prop} (p : Char → Bool)
    {l : List Char} (h : List.Chain' R l) : List.Chain' R (stripEnds p l) := by
  have h1 := List.rdropWhile_prefix p (List.dropWhile p l)
  have h2 := h.suffix (List.dropWhile_suffix (l := l) p)
  exact h2.prefix h1

theorem stripEnds_head (p : Char → Bool) (l : List Char) {c : Char}
    (hc : (stripEnds p l).head? = some c) : p c = false := by
  obtain ⟨t, ht⟩ := List.rdropWhile_prefix p (List.dropWhile p l)
  have hne : stripEnds p l ≠ [] := by
    intro h
    rw [h] at hc
    exact absurd hc (by simp)
  cases hs : stripEnds p l with
  | nil => exact absurd hs hne
  | cons d ds =>
    have hdc : d = c := by
      rw [hs] at hc
      simpa using hc
    have hhead : (List.dropWhile p l).head? = some c := by
      have ht' : stripEnds p l ++ t = List.dropWhile p l := ht
      rw [← ht', hs, hdc]
      simp
    have hne2 : List.dropWhile p l ≠ [] := by
      intro h
      rw [h] at hhead
      exact absurd hhead (by simp)
    have hnp := List.head_dropWhile_not p l hne2
    have h3 : (List.dropWhile p l).head hne2 = c := by
      have := List.head?_eq_head hne2
      rw [this] at hhead
      simpa using hhead
    rw [h3] at hnp
    simpa using hnp

theorem stripEnds_last (p : Char → Bool) (l : List Char) {c : Char}
    (hc : (stripEnds p l).getLast? = some c) : p c = false := by
  have hne : stripEnds p l ≠ [] := by
    intro h
    rw [h] at hc
    exact absurd hc (by simp)
  have hnp := List.rdropWhile_last_not p (List.dropWhile p l) hne
  have h3 : (stripEnds p l).getLast hne = c := by
    have := List.getLast?_eq_getLast (stripEnds p l) hne
    rw [this] at hc
    simpa using hc
  rw [show (List.rdropWhile p (List.dropWhile p l)).getLast hne =
    (stripEnds p l).getLast hne from rfl, h3] at hnp
  simpa using hnp

theorem stripEnds_eq_self (p : Char → Bool) (l : List Char)
    (hh : ∀ c, l.head? = some c → p c = false)
    (hl : ∀ c, l.getLast? = some c → p c = false) : stripEnds p l = l := by
  have h1 : List.dropWhile p l = l := by
    cases l with
    | nil => rfl
    | cons d ds =>
      rw [List.dropWhile_cons, if_neg (by simp [hh d rfl])]
  rw [stripEnds, h1, List.rdropWhile_eq_self_iff]
  intro hne
  have h2 := List.getLast?_eq_getLast l hne
  have h3 := hl _ h2
  simp [h3]

/-- The characters of the sanitized output carry no whitespace and no
forbidden character; the output has no two adjacent hyphens and neither starts
nor ends with a hyphen. -/
theorem sanitizeData_facts (l : List Char) :
    (∀ c ∈ sanitizeData l, isJsWs c = false ∧ isForbidden c = false) ∧
    List.Chain' NoHH (sanitizeData l) ∧
    (∀ c, (sanitizeData l).head? = some c → c ≠ '-') ∧
    (∀ c, (sanitizeData l).getLast? = some c → c ≠ '-') := by
  have hwns : ∀ c ∈ collapseRuns isJsWs '-' (jsTrim l), isJsWs c = false := by
    intro c hc
    rcases collapseAux_mem isJsWs '-' (jsTrim l) false c hc with rfl | ⟨-, hp⟩
    · decide
    · exact hp
  have hfacts : ∀ c ∈ (collapseRuns isJsWs '-' (jsTrim l)).map replaceChar,
      isJsWs c = false ∧ isForbidden c = false := by
    intro c hc
    obtain ⟨c', hc', rfl⟩ := List.mem_map.mp hc
    by_cases hb : isForbidden c'
    · rw [replaceChar, if_pos hb]
      exact ⟨by decide, by decide⟩
    · rw [replaceChar, if_neg hb]
      exact ⟨hwns c' hc', by simpa using hb⟩
  have h4facts : ∀ c ∈ collapseRuns isHy '-'
      ((collapseRuns isJsWs '-' (jsTrim l)).map replaceChar),
      isJsWs c = false ∧ isForbidden c = false := by
    intro c hc
    rcases collapseAux_mem isHy '-' _ false c hc with rfl | ⟨hm, -⟩
    · exact ⟨by decide, by decide⟩
    · exact hfacts c hm
  have h4chain : List.Chain' NoHH (collapseRuns isHy '-'
      ((collapseRuns isJsWs '-' (jsTrim l)).map replaceChar)) :=
    collapseAux_hy_chain _ false
  refine ⟨?_, ?_, ?_, ?_⟩
  · intro c hc
    exact h4facts c (stripEnds_mem isHy _ hc)
  · exact stripEnds_chain isHy h4chain
  · intro c hc
    exact (isHy_false_iff c).mp (stripEnds_head isHy _ hc)
  · intro c hc
    exact (isHy_false_iff c).mp (stripEnds_last isHy _ hc)

/-- Applying the sanitizer pipeline to its own output changes nothing. -/
theorem sanitizeData_idem (l : List Char) :
    sanitizeData (sanitizeData l) = sanitizeData l := by
  obtain ⟨hcf, hch, hhd, hlst⟩ := sanitizeData_facts l
  have e1 : jsTrim (sanitizeData l) = sanitizeData l :=
    stripEnds_eq_self isJsWs _
      (fun c hc => (hcf c (head?_mem hc)).1)
      (fun c hc => (hcf c (getLast?_mem hc)).1)
  have e2 : collapseRuns isJsWs '-' (sanitizeData l) = sanitizeData l :=
    collapseAux_id isJsWs '-' _ false (fun c hc => (hcf c hc).1)
  have e3 : (sanitizeData l).map replaceChar = sanitizeData l := by
    have := List.map_congr_left
      (fun c (hc : c ∈ sanitizeData l) =>
        show replaceChar c = id c by rw [replaceChar, if_neg (by simp [(hcf c hc).2])]; rfl)
    rw [this, List.map_id]
  have e4 : collapseRuns isHy '-' (sanitizeData l) = sanitizeData l :=
    (collapseAux_id_of_chain _ hch).1
  have e5 : stripEnds isHy (sanitizeData l) = sanitizeData l :=
    stripEnds_eq_self isHy _
      (fun c hc => (isHy_false_iff c).mpr (hhd c hc))
      (fun c hc => (isHy_false_iff c).mpr (hlst c hc))
  calc sanitizeData (sanitizeData l)
      = stripEnds isHy (collapseRuns isHy '-'
          ((collapseRuns isJsWs '-' (jsTrim (sanitizeData l))).map replaceChar)) := rfl
    _ = sanitizeData l := by rw [e1, e2, e3, e4, e5]

/-- C5: `sanitize` is idempotent, and its output never has a leading hyphen, a
trailing hyphen, or two adjacent hyphens. -/
theorem sanitize_idempotent_shape :
    ∀ x : String,
      sanitizeSegment (sanitizeSegment x) = sanitizeSegment x ∧
      (sanitizeSegment x).data.head? ≠ some '-' ∧
      (sanitizeSegment x).data.getLast? ≠ some '-' ∧
      ¬ List.IsInfix ['-', '-'] (sanitizeSegment x).data := by
  intro x
  obtain ⟨-, hch, hhd, hlst⟩ := sanitizeData_facts x.data
  refine ⟨?_, ?_, ?_, ?_⟩
  · show String.mk (sanitizeData (String.mk (sanitizeData x.data)).data) =
      String.mk (sanitizeData x.data)
    rw [show (String.mk (sanitizeData x.data)).data = sanitizeData x.data from rfl,
      sanitizeData_idem]
  · intro h
    exact hhd '-' h rfl
  · intro h
    exact hlst '-' h rfl
  · intro hinf
    have hc2 := List.Chain'.infix hch hinf
    exact (List.chain'_cons.mp hc2).1 ⟨rfl, rfl⟩

end PdfSort
